import Mathlib

/-!
# Verification of the chippy task-progress client

A shallow embedding, in Lean 4, of the progress-tracking frontend in
`src/frontend/script.js` (the current revision of the script, i.e. the second
document in that file): the CSV decoder (`parseCSV` / `parseCSVLine`), the
column-schema operations (add / rename / retype / header reconciliation), the
progress-table diffing renderer (`updateProgressTable`), and the task
lifecycle controller (`handleSearch` / `startPolling` / `stopPolling` /
`pollProgress` / `updateProgressUI`).

Strings handled character-by-character by the JavaScript code are modelled as
`List Char`; strings used only as atomic keys or labels are modelled as
`String`.  JavaScript's `String.prototype.trim` and `toLowerCase` are modelled
on the ASCII fragment (`jsTrim`, `jsToLower`), which is the fragment the
program exercises.  Asynchronous callbacks are modelled as pure state
transitions applied when the corresponding event resolves.
-/

/-! ## Association lists

JavaScript plain objects used as keyed maps (`row[name] = v`,
`tables[uid]`, DOM rows addressed by `id`) are modelled as insertion-ordered
association lists.  `objInsert` models `obj[k] = v` (overwrite in place, else
append); `lookupA` models `obj[k]`; `setA` models mutating the value at an
existing key.
-/

def objInsert {α β : Type} [DecidableEq α] : List (α × β) → α → β → List (α × β)
  | [], k, v => [(k, v)]
  | (k', v') :: rest, k, v =>
    if k' = k then (k, v) :: rest else (k', v') :: objInsert rest k v

def lookupA {α β : Type} [DecidableEq α] : List (α × β) → α → Option β
  | [], _ => none
  | (k', v') :: rest, k => if k' = k then some v' else lookupA rest k

def setA {α β : Type} [DecidableEq α] : List (α × β) → α → β → List (α × β)
  | [], _, _ => []
  | (k', v') :: rest, k, v =>
    if k' = k then (k', v) :: rest else (k', v') :: setA rest k v

/-! ## JavaScript string primitives (ASCII fragment) -/

/-- Whitespace recognised by `String.prototype.trim` (ASCII fragment). -/
def isWS (c : Char) : Bool :=
  c == ' ' || c == '\t' || c == '\n' || c == '\r' || c == '\x0b' || c == '\x0c'

/-- Models `String.prototype.trim` on character lists. -/
def jsTrim (l : List Char) : List Char :=
  ((l.dropWhile isWS).reverse.dropWhile isWS).reverse

/-- Models `String.prototype.trim` on `String`. -/
def jsTrimStr (s : String) : String := ⟨jsTrim s.data⟩

/-- Models `String.prototype.toLowerCase` on one character (ASCII fragment). -/
def lowerChar (c : Char) : Char :=
  if 'A' ≤ c ∧ c ≤ 'Z' then Char.ofNat (c.toNat + 32) else c

/-- Models `String.prototype.toLowerCase` (ASCII fragment). -/
def jsToLower (s : String) : String := ⟨s.data.map lowerChar⟩

/-! ## CSV decoder

From `parseCSV` / `parseCSVLine` in `src/frontend/script.js` (lines 850-907 of
the current revision).
-/

/-- The two-state field scanner inside `parseCSVLine`: walks the line with an
accumulated current field and an `inQuotes` flag.  A `"` while in quotes and
immediately followed by another `"` appends one literal quote and skips the
second character; any other `"` toggles the flag; a `,` outside quotes pushes
the trimmed current field; everything else is appended to the current field.
At the end the last field is pushed unconditionally. -/
def scanLine : List Char → List Char → Bool → List (List Char)
  | [], cur, _ => [jsTrim cur]
  | '"' :: '"' :: rest, cur, true => scanLine rest (cur ++ ['"']) true
  | '"' :: rest, cur, true => scanLine rest cur false
  | '"' :: rest, cur, false => scanLine rest cur true
  | ',' :: rest, cur, false => jsTrim cur :: scanLine rest [] false
  | c :: rest, cur, inQ => scanLine rest (cur ++ [c]) inQ

/-- Models `parseCSVLine(line)`. -/
def parseCSVLine (line : List Char) : List (List Char) := scanLine line [] false

/-- Models `text.split('\n')` with an accumulator, single-character separator. -/
def splitNLGo : List Char → List Char → List (List Char)
  | [], cur => [cur]
  | '\n' :: rest, cur => cur :: splitNLGo rest []
  | c :: rest, cur => splitNLGo rest (cur ++ [c])

/-- Models `text.split('\n')`. -/
def splitNL (l : List Char) : List (List Char) := splitNLGo l []

/-- A decoded row: JavaScript object mapping header name to field value. -/
abbrev CSVRow := List (List Char × List Char)

/-- The loop body `for (j = 0; j < header.length; j++) row[header[j]] =
values[j] || ''` walking `header` and `values` in step. -/
def mkRowGo (row : CSVRow) : List (List Char) → List (List Char) → CSVRow
  | [], _ => row
  | h :: hs, values => mkRowGo (objInsert row h (values.head?.getD [])) hs values.tail

/-- Builds the name-keyed row for one data line. -/
def mkRow (header values : List (List Char)) : CSVRow := mkRowGo [] header values

/-- The data-row loop of `parseCSV`: skip lines that trim to empty, otherwise
parse the line and key it by the header. -/
def csvDataRows (header : List (List Char)) (lines : List (List Char)) : List CSVRow :=
  lines.filterMap fun l =>
    if jsTrim l = [] then none else some (mkRow header (parseCSVLine l))

/-- Models `parseCSV(text)`. -/
def parseCSV (text : List Char) : List CSVRow :=
  if jsTrim text = [] then []
  else
    match splitNL (jsTrim text) with
    | [] => []
    | hline :: rest => csvDataRows (parseCSVLine hline) rest

/-! ## CSV serializer (round-trip partner)

The serializer that produced the artifact is outside `src/frontend`; the
round-trip law quantifies over the standard serialization it describes:
a field is wrapped in double quotes when it contains a comma, a double quote
or a line break, embedded double quotes are doubled, fields are joined with
commas and records with line breaks, with a trailing line break.
-/

def needsQuoting (f : List Char) : Bool :=
  f.any fun c => c == ',' || c == '"' || c == '\n'

/-- Double every embedded double quote. -/
def escapeField (f : List Char) : List Char :=
  f.flatMap fun c => if c = '"' then ['"', '"'] else [c]

def serializeField (f : List Char) : List Char :=
  if needsQuoting f then '"' :: escapeField f ++ ['"'] else f

def serializeRow : List (List Char) → List Char
  | [] => []
  | [f] => serializeField f
  | f :: fs => serializeField f ++ ',' :: serializeRow fs

/-- Join lines with `'\n'`. -/
def joinNL : List (List Char) → List Char
  | [] => []
  | [l] => l
  | l :: ls => l ++ '\n' :: joinNL ls

def serializeCSV (header : List (List Char)) (rows : List (List (List Char))) : List Char :=
  joinNL (serializeRow header :: rows.map serializeRow) ++ ['\n']

/-! ## Column schema model

From the current revision of `script.js`: `init` (line 979), the add-column
click handler inside `renderHeaders` (lines 791-801), `handleRename`'s
`finishEditing` (lines 697-710), the type-select change handler (lines
761-766), and the header reconciliation in `downloadCSV` (lines 656-663).
-/

structure Column where
  name : String
  type : String
deriving DecidableEq

/-- The seed columns set by `init()`. -/
def initColumns : List Column := [⟨"USPTO_ID", "TEXT"⟩, ⟨"Table_No", "TEXT"⟩]

structure SchemaState where
  columns : List Column
  nextColumnNumber : Nat
deriving DecidableEq

/-- Models `init()`: seeds the fixed columns and starts user columns from 1. -/
def initSchema : SchemaState := ⟨initColumns, 1⟩

/-- The candidate name :  backtick-template `Column ${i}`. -/
def columnName (i : Nat) : String := "Column " ++ Nat.repr i

/-- The `do { newColName = ... } while (columns.some(...))` probe loop,
with explicit fuel (the loop terminates because only finitely many names are
taken; `columns.length + 1` probes always suffice).  Returns the chosen name
and the final value of `i` (one past the number used). -/
def probeColumn (cols : List Column) : Nat → Nat → String × Nat
  | 0, i => (columnName i, i + 1)
  | fuel + 1, i =>
    if cols.any fun c => c.name == columnName i then probeColumn cols fuel (i + 1)
    else (columnName i, i + 1)

/-- The add-column button click handler. -/
def addColumnClick (s : SchemaState) : SchemaState :=
  let p := probeColumn s.columns (s.columns.length + 1) s.nextColumnNumber
  { columns := s.columns ++ [⟨p.1, "TEXT"⟩], nextColumnNumber := p.2 }

/-- Models `oldCol.name = newName` where `oldCol = columns.find(c => c.name === oldName)`:
rename the first column whose name is `oldName`. -/
def renameFirst : List Column → String → String → List Column
  | [], _, _ => []
  | c :: rest, oldName, newName =>
    if c.name = oldName then { c with name := newName } :: rest
    else c :: renameFirst rest oldName newName

/-- Models the `finishEditing` closure of `handleRename` as a schema operation: `rawNew`
is the text left in the input control when editing finishes. -/
def handleRename (cols : List Column) (oldName rawNew : String) : List Column :=
  let newName := jsTrimStr rawNew
  if newName ≠ "" ∧ newName ≠ oldName then
    match cols.find? (fun c => c.name == oldName) with
    | some _ =>
      if cols.any (fun c => jsToLower c.name == jsToLower newName) then cols
      else renameFirst cols oldName newName
    | none => cols
  else cols

/-- The type-select change handler: `columns.find(c => c.name === name).type = value`. -/
def retypeColumn : List Column → String → String → List Column
  | [], _, _ => []
  | c :: rest, name, ty =>
    if c.name = name then { c with type := ty } :: rest
    else c :: retypeColumn rest name ty

/-- Models `new Map(columns.map(c => [c.name, c.type])).get(name)`: a later duplicate
key overwrites an earlier one, so the last matching column wins. -/
def typeMapGet (cols : List Column) (n : String) : Option String :=
  (cols.reverse.find? fun c => c.name == n).map fun c => c.type

/-- Header reconciliation in `downloadCSV`: rebuild the column list in header
order, reusing the previously chosen type when the name existed before. -/
def reconcileColumns (cols : List Column) (header : List String) : List Column :=
  header.map fun n => ⟨n, (typeMapGet cols n).getD "TEXT"⟩

/-- The schema operations reachable from the page. -/
inductive SchemaOp
  | add : SchemaOp
  | rename (oldName rawNew : String) : SchemaOp
  | retype (name ty : String) : SchemaOp
  | reconcile (header : List String) : SchemaOp

def applySchemaOp (s : SchemaState) : SchemaOp → SchemaState
  | .add => addColumnClick s
  | .rename oldName rawNew => { s with columns := handleRename s.columns oldName rawNew }
  | .retype name ty => { s with columns := retypeColumn s.columns name ty }
  | .reconcile header => { s with columns := reconcileColumns s.columns header }

/-- Side condition carried by the environment: a reconciliation header comes
from `Object.keys` of a JavaScript object, whose keys are unique. -/
def validSchemaOp : SchemaOp → Prop
  | .reconcile header => header.Nodup
  | _ => True

/-! ## Progress snapshot store and incremental renderer

From `initializeProgressTable` (lines 517-559), `updateProgressTable` (lines
561-594) and the surrounding state of the current revision.  A DOM row is
keyed by the item's `uid`; all of a row's non-fixed (`status-cell`) cells are
always painted with the same badge, so the presentation state of a row is
modelled as that single cell content.  The sort order used when the skeleton
is first built is presentational and not tracked.
-/

def matchBadge : String := "<span class=\"status-badge match\">Match</span>"

def missBadge : String := "<span class=\"status-badge miss\">Miss</span>"

def loadingBadge : String := "<span class=\"status-badge loading\">Loading...</span>"

/-- The `switch (table.status)` painting one status cell: the closed
vocabulary of the renderer.  `pending` and `processing` have no case, so the
cell keeps its previous content. -/
def paintCell (status : String) (old : String) : String :=
  if status = "completed_relevant" then matchBadge
  else if status = "completed_irrelevant" then missBadge
  else if status = "error" then missBadge
  else old

/-- The body of `Object.values(tables).forEach` in `updateProgressTable`:
look up the row by uid (skip when absent), repaint its status cells only when
the retained status differs from the incoming one. -/
def updateRow (retained : List (String × String)) (dom : List (String × String))
    (uid status : String) : List (String × String) :=
  match lookupA dom uid with
  | none => dom
  | some old =>
    if lookupA retained uid ≠ some status then setA dom uid (paintCell status old)
    else dom

/-- The DOM effect of `updateProgressTable(tables)`: fold the per-item update
over the incoming snapshot, diffing against the retained copy. -/
def updateProgressTableDom (tables retained dom : List (String × String)) :
    List (String × String) :=
  tables.foldl (fun d t => updateRow retained d t.1 t.2) dom

/-- Models `updateProgressTable(tables)` in full: repaint the rows whose status
changed, then replace the retained copy wholesale
(`tableProgressData = tables`).  Returns (new retained copy, new DOM rows). -/
def updateProgressTable (tables retained dom : List (String × String)) :
    List (String × String) × List (String × String) :=
  (tables, updateProgressTableDom tables retained dom)

/-- Models `initializeProgressTable(tables)`: build one row per item, all status
cells showing the loading badge. -/
def initRows (tables : List (String × String)) : List (String × String) :=
  tables.map fun t => (t.1, loadingBadge)

/-! ## Task lifecycle controller

From the current revision: `startPolling` (lines 619-631), `stopPolling`
(lines 633-639), `pollProgress` (lines 596-617), `updateProgressUI` (lines
489-515) and `handleSearch` (lines 909-977).  The observable client state is
collected in `AppState`; each asynchronous continuation is a pure transition.
-/

/-- One poll response body (the fields the code reads). -/
structure Progress where
  status : String
  message : Option String
  tables : List (String × String)
deriving DecidableEq

structure AppState where
  currentTaskId : Option String
  pollActive : Bool
  dotActive : Bool
  tableProgressData : List (String × String)
  domRows : List (String × String)
  statusText : String
  searchDisabled : Bool
  downloadsRequested : List String
deriving DecidableEq

/-- The page state after `init()` runs. -/
def initAppState : AppState :=
  { currentTaskId := none, pollActive := false, dotActive := false,
    tableProgressData := [], domRows := [], statusText := "",
    searchDisabled := false, downloadsRequested := [] }

/-- Models `stopPolling()`: clears the poll interval and stops the dot animation. -/
def stopPolling (s : AppState) : AppState :=
  { s with pollActive := false, dotActive := false }

/-- Models `startPolling(taskId)`: records the task id, resets the retained progress
data, clears the table body (`renderBody([])` with a task id set leaves it
empty), starts the poll interval and the dot animation. -/
def startPolling (taskId : String) (s : AppState) : AppState :=
  { s with currentTaskId := some taskId, tableProgressData := [], domRows := [],
           pollActive := true, dotActive := true }

/-- Models `updateProgressUI(progress)` of the current revision: build or diff the
progress table, then handle terminal statuses.  On `completed` it stops
polling and requests the CSV download for the *current* task id; on `error`
it surfaces the server message and stops polling.  The submission control is
not touched on any branch. -/
def updateProgressUI (p : Progress) (s : AppState) : AppState :=
  let s1 :=
    if p.tables ≠ [] ∧ s.tableProgressData = [] then
      { s with tableProgressData := p.tables, domRows := initRows p.tables }
    else if p.tables ≠ [] then
      { s with domRows := updateProgressTableDom p.tables s.tableProgressData s.domRows,
               tableProgressData := p.tables }
    else s
  if p.status = "completed" then
    let s2 := stopPolling s1
    match s2.currentTaskId with
    | some tid => { s2 with downloadsRequested := s2.downloadsRequested ++ [tid] }
    | none => s2
  else if p.status = "error" then
    stopPolling { s1 with statusText := "❌ " ++ (p.message.getD "Extraction failed") }
  else s1

/-- The continuation of `pollProgress(taskId)` once its fetch resolves with
body `p`.  `taskId` is the tag the request was issued under; the code never
compares it with the task id that is current at resolution time. -/
def pollProgress (taskId : String) (p : Progress) (s : AppState) : AppState :=
  if p.status = "not_found" then stopPolling s
  else
    let s1 := updateProgressUI p s
    if p.status = "completed" ∨ p.status = "error" then stopPolling s1 else s1

/-- How the submission request can resolve. -/
inductive SubmitOutcome
  | httpError (detail : Option String) : SubmitOutcome
  | ok (tables : List (String × String)) (message : Option String)
      (status : Option String) (taskId : Option String) : SubmitOutcome
  | networkError : SubmitOutcome

/-- Models `handleSearch()` of the current revision, as a function of the submission
outcome: the synchronous prefix (validation, stopping previous timers,
clearing previous task state, disabling the submission control) followed by
the continuation for the resolved `/api/extract` response. -/
def handleSearch (rawQuery : String) (cols : List Column) (outcome : SubmitOutcome)
    (s : AppState) : AppState :=
  let query := jsTrimStr rawQuery
  if query = "" ∨ cols = [] then
    { s with statusText := "❌ Please provide a search query and at least one column." }
  else
    let s1 := stopPolling s
    let s1 := { s1 with currentTaskId := none, tableProgressData := [],
                        searchDisabled := true, statusText := "", domRows := [] }
    match outcome with
    | .httpError detail =>
      { s1 with statusText := "❌ " ++ detail.getD "Unknown error", searchDisabled := false }
    | .networkError =>
      { s1 with statusText := "❌ Failed to reach backend", searchDisabled := false }
    | .ok tables message status taskId =>
      if tables ≠ [] then
        let s2 := { s1 with tableProgressData := tables, domRows := initRows tables }
        match taskId with
        | some tid =>
          if status ≠ some "completed" then startPolling tid s2
          else { s2 with statusText := message.getD "", searchDisabled := false }
        | none => { s2 with statusText := message.getD "", searchDisabled := false }
      else
        { s1 with statusText := message.getD "No relevant tables found.",
                  searchDisabled := false }

/-- Truncate to `n` entries and pad missing trailing entries with the empty
string: the effective field list `parseCSV` reads through `values[j] || ''`. -/
def truncPad (values : List (List Char)) (n : Nat) : List (List Char) :=
  values.take n ++ List.replicate (n - values.length) []

/-! ## Association list lemmas -/

theorem lookupA_objInsert_self {α β : Type} [DecidableEq α] (l : List (α × β)) (k : α) (v : β) :
    lookupA (objInsert l k v) k = some v := by
  induction l with
  | nil => simp [objInsert, lookupA]
  | cons p rest ih =>
    by_cases h : p.1 = k
    · simp [objInsert, lookupA, h]
    · simp [objInsert, lookupA, h, ih]

theorem lookupA_objInsert_ne {α β : Type} [DecidableEq α] (l : List (α × β)) (k k' : α) (v : β)
    (h : k' ≠ k) : lookupA (objInsert l k v) k' = lookupA l k' := by
  have h' : ¬ k = k' := fun hh => h hh.symm
  induction l with
  | nil => simp [objInsert, lookupA, h']
  | cons p rest ih =>
    rcases p with ⟨k1, v1⟩
    by_cases hp : k1 = k
    · subst hp
      simp [objInsert, lookupA, h']
    · simp only [objInsert, if_neg hp, lookupA]
      by_cases hp' : k1 = k' <;> simp [hp', ih]

theorem objInsert_eq_append {α β : Type} [DecidableEq α] (l : List (α × β)) (k : α) (v : β)
    (h : lookupA l k = none) : objInsert l k v = l ++ [(k, v)] := by
  induction l with
  | nil => simp [objInsert]
  | cons p rest ih =>
    rcases p with ⟨k', v'⟩
    by_cases hp : k' = k
    · simp [lookupA, hp] at h
    · simp only [lookupA, if_neg hp] at h
      simp [objInsert, hp, ih h]

theorem lookupA_eq_none_of_not_mem {α β : Type} [DecidableEq α] (l : List (α × β)) (k : α)
    (h : k ∉ l.map Prod.fst) : lookupA l k = none := by
  induction l with
  | nil => rfl
  | cons p rest ih =>
    simp only [List.map_cons, List.mem_cons] at h
    push_neg at h
    have h1 : ¬ p.1 = k := fun hh => h.1 hh.symm
    rcases p with ⟨k1, v1⟩
    simp only [lookupA, if_neg h1]
    exact ih h.2

theorem lookupA_setA_self {α β : Type} [DecidableEq α] (l : List (α × β)) (k : α) (v : β) :
    lookupA (setA l k v) k = (lookupA l k).map fun _ => v := by
  induction l with
  | nil => simp [setA, lookupA]
  | cons p rest ih =>
    by_cases h : p.1 = k
    · simp [setA, lookupA, h]
    · simp [setA, lookupA, h, ih]

theorem lookupA_setA_ne {α β : Type} [DecidableEq α] (l : List (α × β)) (k k' : α) (v : β)
    (h : k' ≠ k) : lookupA (setA l k v) k' = lookupA l k' := by
  have h' : ¬ k = k' := fun hh => h hh.symm
  induction l with
  | nil => simp [setA, lookupA]
  | cons p rest ih =>
    rcases p with ⟨k1, v1⟩
    by_cases hp : k1 = k
    · subst hp
      simp [setA, lookupA, h']
    · simp only [setA, if_neg hp, lookupA]
      by_cases hp' : k1 = k' <;> simp [hp', ih]

theorem setA_lookup_eq {α β : Type} [DecidableEq α] (l : List (α × β)) (k : α) (v : β)
    (h : lookupA l k = some v) : setA l k v = l := by
  induction l with
  | nil => rfl
  | cons p rest ih =>
    rcases p with ⟨k', v'⟩
    by_cases hp : k' = k
    · simp only [lookupA, if_pos hp] at h
      simp only [Option.some.injEq] at h
      simp [setA, hp, h]
    · simp only [lookupA, if_neg hp] at h
      simp [setA, hp, ih h]

/-! ## jsTrim lemmas -/

theorem dropWhile_eq_self_of_head {α : Type} (p : α → Bool) (l : List α)
    (h : ∀ c, l.head? = some c → p c = false) : l.dropWhile p = l := by
  cases l with
  | nil => rfl
  | cons a t => simp [List.dropWhile_cons, h a rfl]

theorem jsTrim_nil : jsTrim [] = [] := rfl

theorem jsTrim_eq_nil_of_all_ws (l : List Char) (h : ∀ c ∈ l, isWS c = true) :
    jsTrim l = [] := by
  have h1 : l.dropWhile isWS = [] := List.dropWhile_eq_nil_iff.mpr h
  simp [jsTrim, h1]

theorem jsTrim_eq_self (l : List Char)
    (h1 : ∀ c, l.head? = some c → isWS c = false)
    (h2 : ∀ c, l.getLast? = some c → isWS c = false) : jsTrim l = l := by
  have e1 : l.dropWhile isWS = l := dropWhile_eq_self_of_head _ _ h1
  have e2 : l.reverse.dropWhile isWS = l.reverse := by
    apply dropWhile_eq_self_of_head
    intro c hc
    exact h2 c (by simpa using hc)
  simp [jsTrim, e1, e2]

theorem jsTrim_append_newline (l : List Char) : jsTrim (l ++ ['\n']) = jsTrim l := by
  unfold jsTrim
  rw [List.dropWhile_append]
  by_cases h : (l.dropWhile isWS).isEmpty
  · simp only [h, if_pos]
    have : l.dropWhile isWS = [] := by simpa [List.isEmpty_iff] using h
    simp [this, List.dropWhile, isWS]
  · simp only [h, if_neg, Bool.false_eq_true, not_false_iff]
    have : (l.dropWhile isWS ++ ['\n']).reverse = '\n' :: (l.dropWhile isWS).reverse := by
      simp
    rw [this]
    simp [List.dropWhile, isWS]

theorem head?_dropWhile_not {α : Type} (p : α → Bool) (l : List α) :
    ∀ c, (l.dropWhile p).head? = some c → p c = false := by
  induction l with
  | nil => intro c h; simp at h
  | cons a t ih =>
    intro c h
    by_cases hp : p a
    · rw [List.dropWhile_cons_of_pos hp] at h
      exact ih c h
    · rw [List.dropWhile_cons_of_neg hp] at h
      simp only [List.head?_cons, Option.some.injEq] at h
      subst h
      simpa using hp

theorem jsTrim_idem (l : List Char) : jsTrim (jsTrim l) = jsTrim l := by
  apply jsTrim_eq_self
  · intro c hc
    rw [show jsTrim l = ((l.dropWhile isWS).reverse.dropWhile isWS).reverse from rfl,
        List.head?_reverse] at hc
    have hx : (l.dropWhile isWS).reverse.dropWhile isWS ≠ [] := by
      intro hh
      rw [hh] at hc
      simp at hc
    obtain ⟨t, ht⟩ := List.dropWhile_suffix (l := (l.dropWhile isWS).reverse) isWS
    have h2 : (t ++ (l.dropWhile isWS).reverse.dropWhile isWS).getLast? =
        ((l.dropWhile isWS).reverse.dropWhile isWS).getLast? :=
      List.getLast?_append_of_ne_nil t hx
    rw [ht, List.getLast?_reverse] at h2
    exact head?_dropWhile_not isWS l c (h2.trans hc)
  · intro c hc
    rw [show jsTrim l = ((l.dropWhile isWS).reverse.dropWhile isWS).reverse from rfl,
        List.getLast?_reverse] at hc
    exact head?_dropWhile_not isWS (l.dropWhile isWS).reverse c hc

/-- Every field the scanner pushes has already been trimmed. -/
theorem scanLine_mem_trim : ∀ l cur b, ∀ f ∈ scanLine l cur b, ∃ x, f = jsTrim x := by
  intro l cur b
  induction l, cur, b using scanLine.induct with
  | case1 cur x =>
    intro f hf
    simp only [scanLine, List.mem_singleton] at hf
    exact ⟨cur, hf⟩
  | case2 rest cur ih =>
    intro f hf
    rw [scanLine.eq_2] at hf
    exact ih f hf
  | case3 rest cur hne ih =>
    intro f hf
    rw [scanLine.eq_3 cur rest hne] at hf
    exact ih f hf
  | case4 rest cur ih =>
    intro f hf
    rw [scanLine.eq_4] at hf
    exact ih f hf
  | case5 rest cur ih =>
    intro f hf
    rw [scanLine.eq_5] at hf
    rcases List.mem_cons.mp hf with hf | hf
    · exact ⟨cur, hf⟩
    · exact ih f hf
  | case6 c rest cur inQ h1 h2 h3 h4 ih =>
    intro f hf
    rw [scanLine.eq_6 cur inQ c rest h1 h2 h3 h4] at hf
    exact ih f hf

/-- The scanner always returns at least one field. -/
theorem scanLine_ne_nil : ∀ l cur b, scanLine l cur b ≠ [] := by
  intro l cur b
  induction l, cur, b using scanLine.induct with
  | case1 cur x => simp [scanLine]
  | case2 rest cur ih => rw [scanLine.eq_2]; exact ih
  | case3 rest cur hne ih => rw [scanLine.eq_3 cur rest hne]; exact ih
  | case4 rest cur ih => rw [scanLine.eq_4]; exact ih
  | case5 rest cur ih => rw [scanLine.eq_5]; simp
  | case6 c rest cur inQ h1 h2 h3 h4 ih => rw [scanLine.eq_6 cur inQ c rest h1 h2 h3 h4]; exact ih

/-- Scanning ordinary characters (no quote, no comma) outside quotes just
accumulates them. -/
theorem scanLine_append_unquoted (f : List Char) (h : ∀ c ∈ f, c ≠ ',' ∧ c ≠ '"') :
    ∀ rest cur, scanLine (f ++ rest) cur false = scanLine rest (cur ++ f) false := by
  induction f with
  | nil => intro rest cur; simp
  | cons a t ih =>
    intro rest cur
    obtain ⟨ha1, ha2⟩ := h a (List.mem_cons_self a t)
    have ht : ∀ c ∈ t, c ≠ ',' ∧ c ≠ '"' := fun c hc => h c (List.mem_cons_of_mem a hc)
    rw [List.cons_append,
        scanLine.eq_6 cur false a (t ++ rest)
          (fun _ hc _ _ => ha2 hc) (fun hc hb => by simp at hb)
          (fun hc _ => ha2 hc) (fun hc _ => ha1 hc),
        ih ht rest (cur ++ [a])]
    simp

/-- Scanning quote-free characters while inside quotes accumulates them,
commas included. -/
theorem scanLine_append_quoted (f : List Char) (h : ∀ c ∈ f, c ≠ '"') :
    ∀ rest cur, scanLine (f ++ rest) cur true = scanLine rest (cur ++ f) true := by
  induction f with
  | nil => intro rest cur; simp
  | cons a t ih =>
    intro rest cur
    have ha : a ≠ '"' := h a (List.mem_cons_self a t)
    have ht : ∀ c ∈ t, c ≠ '"' := fun c hc => h c (List.mem_cons_of_mem a hc)
    rw [List.cons_append,
        scanLine.eq_6 cur true a (t ++ rest)
          (fun _ hc _ _ => ha hc) (fun hc _ => ha hc)
          (fun hc _ => ha hc) (fun _ hb => by simp at hb),
        ih ht rest (cur ++ [a])]
    simp

/-- Scanning the quote-doubled encoding of `f` while inside quotes
accumulates exactly `f`. -/
theorem scanLine_append_escaped (f : List Char) :
    ∀ rest cur, scanLine (escapeField f ++ rest) cur true = scanLine rest (cur ++ f) true := by
  induction f with
  | nil => intro rest cur; simp [escapeField]
  | cons a t ih =>
    intro rest cur
    by_cases ha : a = '"'
    · subst ha
      have he : escapeField ('"' :: t) = '"' :: '"' :: escapeField t := by
        simp [escapeField]
      rw [he, List.cons_append, List.cons_append, scanLine.eq_2, ih rest (cur ++ ['"'])]
      simp
    · have he : escapeField (a :: t) = a :: escapeField t := by
        simp [escapeField, ha]
      rw [he, List.cons_append,
          scanLine.eq_6 cur true a (escapeField t ++ rest)
            (fun _ hc _ _ => ha hc) (fun hc _ => ha hc)
            (fun hc _ => ha hc) (fun _ hb => by simp at hb),
          ih rest (cur ++ [a])]
      simp

/-- A closing quote (not followed by another quote) leaves quoted mode. -/
theorem scanLine_close_quote (rest cur : List Char) (hr : rest.head? ≠ some '"') :
    scanLine ('"' :: rest) cur true = scanLine rest cur false := by
  cases rest with
  | nil => exact scanLine.eq_3 cur [] (by intro r1 hh; cases hh)
  | cons r rs =>
    have hr' : r ≠ '"' := by
      intro hh
      exact hr (by simp [hh])
    exact scanLine.eq_3 cur (r :: rs) (by intro r1 hh; exact hr' (by injection hh))

/-- Scanning one serialized field consumes it and accumulates exactly the
original field value, for any continuation not starting with a quote. -/
theorem scanLine_serializeField (f rest cur : List Char) (hr : rest.head? ≠ some '"') :
    scanLine (serializeField f ++ rest) cur false = scanLine rest (cur ++ f) false := by
  by_cases hq : needsQuoting f
  · simp only [serializeField, if_pos hq]
    simp only [List.cons_append, List.append_assoc, List.singleton_append, List.nil_append]
    rw [scanLine.eq_4, scanLine_append_escaped f ('"' :: rest) cur,
        scanLine_close_quote rest (cur ++ f) hr]
  · simp only [serializeField, if_neg hq]
    apply scanLine_append_unquoted
    intro c hc
    simp only [needsQuoting] at hq
    have hq' : (f.any fun c => c == ',' || c == '"' || c == '\n') = false := by
      simpa using hq
    rw [List.any_eq_false] at hq'
    have hcc := hq' c hc
    simp only [Bool.or_eq_true, beq_iff_eq, not_or] at hcc
    exact ⟨hcc.1.1, hcc.1.2⟩

/-! ## Split / join lemmas -/

theorem splitNLGo_no_nl (l : List Char) (h : '\n' ∉ l) :
    ∀ cur, splitNLGo l cur = [cur ++ l] := by
  induction l with
  | nil => intro cur; simp [splitNLGo]
  | cons a t ih =>
    intro cur
    have ha : ¬ a = '\n' := fun hh => h (hh ▸ List.mem_cons_self a t)
    have ht : '\n' ∉ t := fun hh => h (List.mem_cons_of_mem a hh)
    rw [splitNLGo.eq_3 cur a t (fun hc => ha hc), ih ht (cur ++ [a])]
    simp

theorem splitNLGo_chunk (l : List Char) (h : '\n' ∉ l) (rest : List Char) :
    ∀ cur, splitNLGo (l ++ '\n' :: rest) cur = (cur ++ l) :: splitNLGo rest [] := by
  induction l with
  | nil => intro cur; simp [splitNLGo]
  | cons a t ih =>
    intro cur
    have ha : ¬ a = '\n' := fun hh => h (hh ▸ List.mem_cons_self a t)
    have ht : '\n' ∉ t := fun hh => h (List.mem_cons_of_mem a hh)
    rw [List.cons_append, splitNLGo.eq_3 cur a (t ++ '\n' :: rest) (fun hc => ha hc),
        ih ht (cur ++ [a])]
    simp

theorem splitNL_joinNL (ls : List (List Char)) (hne : ls ≠ [])
    (h : ∀ l ∈ ls, '\n' ∉ l) : splitNL (joinNL ls) = ls := by
  induction ls with
  | nil => exact absurd rfl hne
  | cons l ls2 ih =>
    cases ls2 with
    | nil =>
      show splitNLGo (joinNL [l]) [] = [l]
      rw [show joinNL [l] = l from rfl, splitNLGo_no_nl l (h l (List.mem_cons_self _ _)) []]
      simp
    | cons l2 ls3 =>
      show splitNLGo (joinNL (l :: l2 :: ls3)) [] = l :: l2 :: ls3
      rw [show joinNL (l :: l2 :: ls3) = l ++ '\n' :: joinNL (l2 :: ls3) from rfl,
          splitNLGo_chunk l (h l (List.mem_cons_self _ _)) (joinNL (l2 :: ls3)) []]
      simp only [List.nil_append]
      congr 1
      exact ih (by simp) fun x hx => h x (List.mem_cons_of_mem _ hx)

/-! ## Parsing a serialized row -/

theorem head?_cons_ne_quote (c : Char) (l : List Char) (h : c ≠ '"') :
    (c :: l).head? ≠ some '"' := by
  simp [h]

theorem parseCSVLine_serializeRow (fields : List (List Char)) (hne : fields ≠ [])
    (htrim : ∀ f ∈ fields, jsTrim f = f) :
    parseCSVLine (serializeRow fields) = fields := by
  induction fields with
  | nil => exact absurd rfl hne
  | cons f fs ih =>
    cases fs with
    | nil =>
      show scanLine (serializeRow [f]) [] false = [f]
      rw [show serializeRow [f] = serializeField f from rfl]
      have hs := scanLine_serializeField f [] [] (by simp)
      rw [List.append_nil, List.nil_append] at hs
      rw [hs, scanLine.eq_1, htrim f (List.mem_cons_self _ _)]
    | cons g gs =>
      show scanLine (serializeRow (f :: g :: gs)) [] false = f :: g :: gs
      rw [show serializeRow (f :: g :: gs) = serializeField f ++ ',' :: serializeRow (g :: gs)
            from rfl,
          scanLine_serializeField f (',' :: serializeRow (g :: gs)) []
            (head?_cons_ne_quote ',' _ (by decide)),
          scanLine.eq_5, List.nil_append, htrim f (List.mem_cons_self _ _)]
      congr 1
      exact ih (by simp) fun x hx => htrim x (List.mem_cons_of_mem _ hx)

/-! ## Shape of serialized lines -/

theorem head?_jsTrim_not_ws (l : List Char) :
    ∀ c, (jsTrim l).head? = some c → isWS c = false := by
  intro c hc
  rw [show jsTrim l = ((l.dropWhile isWS).reverse.dropWhile isWS).reverse from rfl,
      List.head?_reverse] at hc
  have hx : (l.dropWhile isWS).reverse.dropWhile isWS ≠ [] := by
    intro hh
    rw [hh] at hc
    simp at hc
  obtain ⟨t, ht⟩ := List.dropWhile_suffix (l := (l.dropWhile isWS).reverse) isWS
  have h2 : (t ++ (l.dropWhile isWS).reverse.dropWhile isWS).getLast? =
      ((l.dropWhile isWS).reverse.dropWhile isWS).getLast? :=
    List.getLast?_append_of_ne_nil t hx
  rw [ht, List.getLast?_reverse] at h2
  exact head?_dropWhile_not isWS l c (h2.trans hc)

theorem getLast?_jsTrim_not_ws (l : List Char) :
    ∀ c, (jsTrim l).getLast? = some c → isWS c = false := by
  intro c hc
  rw [show jsTrim l = ((l.dropWhile isWS).reverse.dropWhile isWS).reverse from rfl,
      List.getLast?_reverse] at hc
  exact head?_dropWhile_not isWS (l.dropWhile isWS).reverse c hc

theorem serializeField_quoted (f : List Char) (hq : needsQuoting f = true) :
    serializeField f = '"' :: (escapeField f ++ ['"']) := by
  simp [serializeField, hq, List.cons_append]

theorem serializeField_head_not_ws (f : List Char) (h : jsTrim f = f) :
    ∀ c, (serializeField f).head? = some c → isWS c = false := by
  by_cases hq : needsQuoting f
  · rw [serializeField_quoted f hq]
    intro c hc
    simp only [List.head?_cons, Option.some.injEq] at hc
    subst hc
    decide
  · simp only [serializeField, if_neg hq]
    intro c hc
    rw [← h] at hc
    exact head?_jsTrim_not_ws f c hc

theorem serializeField_getLast_not_ws (f : List Char) (h : jsTrim f = f) :
    ∀ c, (serializeField f).getLast? = some c → isWS c = false := by
  by_cases hq : needsQuoting f
  · rw [serializeField_quoted f hq]
    intro c hc
    rw [show ('"' :: (escapeField f ++ ['"']) : List Char) =
          ('"' :: escapeField f) ++ ['"'] by simp, List.getLast?_append_of_ne_nil _ (by simp)]
        at hc
    simp only [List.getLast?_singleton, Option.some.injEq] at hc
    subst hc
    decide
  · simp only [serializeField, if_neg hq]
    intro c hc
    rw [← h] at hc
    exact getLast?_jsTrim_not_ws f c hc

theorem serializeRow_head_not_ws (r : List (List Char)) (ht : ∀ f ∈ r, jsTrim f = f) :
    ∀ c, (serializeRow r).head? = some c → isWS c = false := by
  cases r with
  | nil => intro c hc; simp [serializeRow] at hc
  | cons f fs =>
    cases fs with
    | nil => exact serializeField_head_not_ws f (ht f (List.mem_cons_self _ _))
    | cons g gs =>
      intro c hc
      rw [show serializeRow (f :: g :: gs) = serializeField f ++ ',' :: serializeRow (g :: gs)
            from rfl, List.head?_append] at hc
      cases hf : (serializeField f).head? with
      | none =>
        rw [hf] at hc
        simp only [Option.none_or, List.head?_cons, Option.some.injEq] at hc
        subst hc
        decide
      | some d =>
        rw [hf] at hc
        have he : (some d).or (',' :: serializeRow (g :: gs)).head? = some d := rfl
        rw [he] at hc
        simp only [Option.some.injEq] at hc
        subst hc
        exact serializeField_head_not_ws f (ht f (List.mem_cons_self _ _)) d hf

theorem serializeRow_getLast_not_ws (r : List (List Char)) (ht : ∀ f ∈ r, jsTrim f = f) :
    ∀ c, (serializeRow r).getLast? = some c → isWS c = false := by
  induction r with
  | nil => intro c hc; simp [serializeRow] at hc
  | cons f fs ih =>
    cases fs with
    | nil => exact serializeField_getLast_not_ws f (ht f (List.mem_cons_self _ _))
    | cons g gs =>
      intro c hc
      rw [show serializeRow (f :: g :: gs) = serializeField f ++ ',' :: serializeRow (g :: gs)
            from rfl, List.getLast?_append_of_ne_nil _ (by simp)] at hc
      cases hR : serializeRow (g :: gs) with
      | nil =>
        rw [hR] at hc
        simp only [List.getLast?_singleton, Option.some.injEq] at hc
        subst hc
        decide
      | cons r0 rs =>
        rw [hR, show (',' :: (r0 :: rs) : List Char) = [','] ++ (r0 :: rs) from rfl,
            List.getLast?_append_of_ne_nil _ (by simp), ← hR] at hc
        exact ih (fun x hx => ht x (List.mem_cons_of_mem _ hx)) c hc

theorem serializeRow_ne_nil (r : List (List Char)) (hr : r ≠ []) (hr1 : r ≠ [[]]) :
    serializeRow r ≠ [] := by
  cases r with
  | nil => exact absurd rfl hr
  | cons f fs =>
    cases fs with
    | nil =>
      have hf : f ≠ [] := by
        intro hh
        exact hr1 (by rw [hh])
      show serializeField f ≠ []
      by_cases hq : needsQuoting f
      · rw [serializeField_quoted f hq]
        simp
      · simpa [serializeField, if_neg hq] using hf
    | cons g gs =>
      show serializeField f ++ ',' :: serializeRow (g :: gs) ≠ []
      simp

theorem mem_escapeField (c : Char) (f : List Char) (h : c ∈ escapeField f) :
    c = '"' ∨ c ∈ f := by
  simp only [escapeField, List.mem_flatMap] at h
  obtain ⟨a, ha, hc⟩ := h
  by_cases haq : a = '"'
  · rw [if_pos haq] at hc
    simp at hc
    exact Or.inl hc
  · rw [if_neg haq] at hc
    simp only [List.mem_singleton] at hc
    exact Or.inr (hc ▸ ha)

theorem nl_not_mem_serializeField (f : List Char) (h : '\n' ∉ f) :
    '\n' ∉ serializeField f := by
  by_cases hq : needsQuoting f
  · rw [serializeField_quoted f hq]
    intro hm
    rcases List.mem_cons.mp hm with hm | hm
    · cases hm
    · rcases List.mem_append.mp hm with hm | hm
      · rcases mem_escapeField _ _ hm with hm | hm
        · cases hm
        · exact h hm
      · simp at hm
  · simpa [serializeField, if_neg hq] using h

theorem nl_not_mem_serializeRow (r : List (List Char)) (h : ∀ f ∈ r, '\n' ∉ f) :
    '\n' ∉ serializeRow r := by
  induction r with
  | nil => simp [serializeRow]
  | cons f fs ih =>
    cases fs with
    | nil => exact nl_not_mem_serializeField f (h f (List.mem_cons_self _ _))
    | cons g gs =>
      show '\n' ∉ serializeField f ++ ',' :: serializeRow (g :: gs)
      intro hm
      rcases List.mem_append.mp hm with hm | hm
      · exact nl_not_mem_serializeField f (h f (List.mem_cons_self _ _)) hm
      · rcases List.mem_cons.mp hm with hm | hm
        · cases hm
        · exact ih (fun x hx => h x (List.mem_cons_of_mem _ hx)) hm

/-! ## Joining lines -/

theorem joinNL_ne_nil (l : List Char) (ls : List (List Char)) (hl : l ≠ []) :
    joinNL (l :: ls) ≠ [] := by
  cases ls with
  | nil => exact hl
  | cons l2 ls3 => simp [joinNL]

theorem joinNL_head? (l : List Char) (ls : List (List Char)) (hl : l ≠ []) :
    (joinNL (l :: ls)).head? = l.head? := by
  cases ls with
  | nil => rfl
  | cons l2 ls3 =>
    rw [show joinNL (l :: l2 :: ls3) = l ++ '\n' :: joinNL (l2 :: ls3) from rfl,
        List.head?_append]
    cases hf : l.head? with
    | none => exact absurd (List.head?_eq_none_iff.mp hf) hl
    | some d => rfl

theorem joinNL_getLast_not_ws (ls : List (List Char))
    (h : ∀ l ∈ ls, (∀ c, l.getLast? = some c → isWS c = false) ∧ l ≠ []) :
    ∀ c, (joinNL ls).getLast? = some c → isWS c = false := by
  induction ls with
  | nil => intro c hc; simp [joinNL] at hc
  | cons l ls2 ih =>
    cases ls2 with
    | nil => exact (h l (List.mem_cons_self _ _)).1
    | cons l2 ls3 =>
      intro c hc
      have hl2 : l2 ≠ [] := (h l2 (List.mem_cons_of_mem _ (List.mem_cons_self _ _))).2
      have hJ : joinNL (l2 :: ls3) ≠ [] := joinNL_ne_nil l2 ls3 hl2
      rw [show joinNL (l :: l2 :: ls3) = l ++ '\n' :: joinNL (l2 :: ls3) from rfl,
          List.getLast?_append_of_ne_nil _ (by simp),
          show ('\n' :: joinNL (l2 :: ls3) : List Char) = ['\n'] ++ joinNL (l2 :: ls3) from rfl,
          List.getLast?_append_of_ne_nil _ hJ] at hc
      exact ih (fun x hx => h x (List.mem_cons_of_mem _ hx)) c hc

theorem jsTrim_serializeRow (r : List (List Char)) (ht : ∀ f ∈ r, jsTrim f = f) :
    jsTrim (serializeRow r) = serializeRow r :=
  jsTrim_eq_self _ (serializeRow_head_not_ws r ht) (serializeRow_getLast_not_ws r ht)

/-! ## Rebuilding rows -/

theorem option_none_or {α : Type} (x : Option α) : Option.or none x = x := rfl

theorem lookupA_append {α β : Type} [DecidableEq α] (l₁ l₂ : List (α × β)) (k : α) :
    lookupA (l₁ ++ l₂) k = (lookupA l₁ k).or (lookupA l₂ k) := by
  induction l₁ with
  | nil => rfl
  | cons p rest ih =>
    rcases p with ⟨k1, v1⟩
    by_cases h : k1 = k
    · simp only [List.cons_append, lookupA, if_pos h]
      rfl
    · simp only [List.cons_append, lookupA, if_neg h]
      exact ih

theorem mkRowGo_nodup_eq (header : List (List Char)) :
    ∀ (values : List (List Char)) (row : CSVRow), header.Nodup →
      values.length = header.length →
      (∀ h ∈ header, lookupA row h = none) →
      mkRowGo row header values = row ++ header.zip values := by
  induction header with
  | nil => intro values row _ _ _; simp [mkRowGo]
  | cons h hs ih =>
    intro values row hnd hlen hfresh
    cases values with
    | nil => simp at hlen
    | cons v vs =>
      have step : mkRowGo row (h :: hs) (v :: vs) = mkRowGo (objInsert row h v) hs vs := by
        simp [mkRowGo]
      have hnd' := List.nodup_cons.mp hnd
      have hfresh' : ∀ x ∈ hs, lookupA (row ++ [(h, v)]) x = none := by
        intro x hx
        rw [lookupA_append, hfresh x (List.mem_cons_of_mem _ hx)]
        have hxh : ¬ h = x := fun hh => hnd'.1 (hh ▸ hx)
        simp [lookupA, hxh, option_none_or]
      rw [step, objInsert_eq_append row h v (hfresh h (List.mem_cons_self _ _)),
          ih vs (row ++ [(h, v)]) hnd'.2 (by simpa using hlen) hfresh']
      simp

theorem mkRow_eq_zip (header values : List (List Char)) (hnd : header.Nodup)
    (hlen : values.length = header.length) :
    mkRow header values = header.zip values := by
  have h := mkRowGo_nodup_eq header values [] hnd hlen (fun x _ => rfl)
  simpa [mkRow] using h

theorem csvDataRows_serialized (header : List (List Char)) (rows : List (List (List Char)))
    (hne : header ≠ []) (hnd : header.Nodup)
    (hrows : ∀ r ∈ rows, r.length = header.length ∧ r ≠ [[]] ∧ ∀ f ∈ r, jsTrim f = f) :
    csvDataRows header (rows.map serializeRow) = rows.map fun r => header.zip r := by
  induction rows with
  | nil => rfl
  | cons r rs ih =>
    obtain ⟨hlen, hr1, htr⟩ := hrows r (List.mem_cons_self _ _)
    have hrne : r ≠ [] := by
      intro hh
      rw [hh] at hlen
      simp only [List.length_nil] at hlen
      exact hne (List.length_eq_zero.mp hlen.symm)
    have hjs : jsTrim (serializeRow r) = serializeRow r := jsTrim_serializeRow r htr
    have hsne : serializeRow r ≠ [] := serializeRow_ne_nil r hrne hr1
    show csvDataRows header (serializeRow r :: rs.map serializeRow) = _
    simp only [csvDataRows, List.filterMap_cons, hjs, if_neg hsne]
    rw [parseCSVLine_serializeRow r hrne htr, mkRow_eq_zip header r hnd hlen]
    simp only [List.map_cons]
    congr 1
    exact ih fun x hx => hrows x (List.mem_cons_of_mem _ hx)

/-- The amended round-trip law: serializing a row set whose field values are
line-break-free, trim-fixed and aligned with a nonempty duplicate-free header
(and where no row is a single empty field) and decoding it again reproduces
every field value exactly. -/
theorem parseCSV_serializeCSV (header : List (List Char)) (rows : List (List (List Char)))
    (hne : header ≠ []) (hnd : header.Nodup)
    (hhf : ∀ h ∈ header, jsTrim h = h ∧ '\n' ∉ h ∧ h ≠ [])
    (hrows : ∀ r ∈ rows, r.length = header.length ∧ r ≠ [[]] ∧
      ∀ f ∈ r, jsTrim f = f ∧ '\n' ∉ f) :
    parseCSV (serializeCSV header rows) = rows.map fun r => header.zip r := by
  have htrims_h : ∀ f ∈ header, jsTrim f = f := fun f hf => (hhf f hf).1
  have hLhead_ne : serializeRow header ≠ [] := by
    apply serializeRow_ne_nil header hne
    intro hh
    exact (hhf [] (by rw [hh]; exact List.mem_cons_self _ _)).2.2 rfl
  have hrows' : ∀ r ∈ rows, r.length = header.length ∧ r ≠ [[]] ∧ ∀ f ∈ r, jsTrim f = f :=
    fun r hr => ⟨(hrows r hr).1, (hrows r hr).2.1,
      fun f hf => ((hrows r hr).2.2 f hf).1⟩
  have hlines : ∀ l ∈ serializeRow header :: rows.map serializeRow, '\n' ∉ l := by
    intro l hl
    rcases List.mem_cons.mp hl with hl | hl
    · subst hl
      exact nl_not_mem_serializeRow header fun f hf => (hhf f hf).2.1
    · obtain ⟨r, hr, hrl⟩ := List.mem_map.mp hl
      subst hrl
      exact nl_not_mem_serializeRow r fun f hf => ((hrows r hr).2.2 f hf).2
  have hjoin_fix : jsTrim (joinNL (serializeRow header :: rows.map serializeRow)) =
      joinNL (serializeRow header :: rows.map serializeRow) := by
    apply jsTrim_eq_self
    · intro c hc
      rw [joinNL_head? _ _ hLhead_ne] at hc
      exact serializeRow_head_not_ws header htrims_h c hc
    · apply joinNL_getLast_not_ws
      intro l hl
      rcases List.mem_cons.mp hl with hl | hl
      · subst hl
        exact ⟨serializeRow_getLast_not_ws header htrims_h, hLhead_ne⟩
      · obtain ⟨r, hr, hrl⟩ := List.mem_map.mp hl
        subst hrl
        obtain ⟨hlen, hr1, htr⟩ := hrows' r hr
        have hrne : r ≠ [] := by
          intro hh
          rw [hh] at hlen
          simp only [List.length_nil] at hlen
          exact hne (List.length_eq_zero.mp hlen.symm)
        exact ⟨serializeRow_getLast_not_ws r htr, serializeRow_ne_nil r hrne hr1⟩
  have htext : jsTrim (serializeCSV header rows) =
      joinNL (serializeRow header :: rows.map serializeRow) := by
    rw [serializeCSV, jsTrim_append_newline, hjoin_fix]
  have hJne : joinNL (serializeRow header :: rows.map serializeRow) ≠ [] :=
    joinNL_ne_nil _ _ hLhead_ne
  simp only [parseCSV, htext, if_neg hJne,
    splitNL_joinNL (serializeRow header :: rows.map serializeRow) (by simp) hlines]
  rw [parseCSVLine_serializeRow header hne htrims_h]
  exact csvDataRows_serialized header rows hne hnd hrows'

/-! ## Decimal rendering is injective -/

theorem toDigitsCore_eq_digits (fuel n : Nat) (acc : List Char) (h0 : 0 < n) (hf : n ≤ fuel) :
    Nat.toDigitsCore 10 fuel n acc = ((Nat.digits 10 n).map Nat.digitChar).reverse ++ acc := by
  induction fuel generalizing n acc with
  | zero => omega
  | succ fuel ih =>
    have hdig : Nat.digits 10 n = n % 10 :: Nat.digits 10 (n / 10) :=
      Nat.digits_def' (by norm_num) h0
    by_cases hq : n / 10 = 0
    · have : Nat.toDigitsCore 10 (fuel + 1) n acc = Nat.digitChar (n % 10) :: acc := by
        rw [Nat.toDigitsCore]
        simp [hq]
      rw [this, hdig, hq]
      simp
    · have hstep : Nat.toDigitsCore 10 (fuel + 1) n acc =
          Nat.toDigitsCore 10 fuel (n / 10) (Nat.digitChar (n % 10) :: acc) := by
        rw [Nat.toDigitsCore]
        simp [hq]
      have hlt : n / 10 < n := Nat.div_lt_self h0 (by norm_num)
      rw [hstep, ih (n / 10) _ (Nat.pos_of_ne_zero hq) (by omega), hdig]
      simp

theorem toDigits_eq_digits (n : Nat) (h0 : 0 < n) :
    Nat.toDigits 10 n = ((Nat.digits 10 n).map Nat.digitChar).reverse := by
  rw [Nat.toDigits, toDigitsCore_eq_digits (n + 1) n [] h0 (by omega), List.append_nil]

theorem digitChar_inj_lt : ∀ a < 10, ∀ b < 10, Nat.digitChar a = Nat.digitChar b → a = b := by
  decide

theorem map_digitChar_inj (l₁ : List Nat) :
    ∀ l₂ : List Nat, (∀ x ∈ l₁, x < 10) → (∀ x ∈ l₂, x < 10) →
      l₁.map Nat.digitChar = l₂.map Nat.digitChar → l₁ = l₂ := by
  induction l₁ with
  | nil =>
    intro l₂ _ _ h
    cases l₂ with
    | nil => rfl
    | cons b t => simp at h
  | cons a t ih =>
    intro l₂ h₁ h₂ h
    cases l₂ with
    | nil => simp at h
    | cons b t2 =>
      simp only [List.map_cons, List.cons.injEq] at h
      have hab : a = b :=
        digitChar_inj_lt a (h₁ a (List.mem_cons_self _ _)) b (h₂ b (List.mem_cons_self _ _)) h.1
      rw [hab, ih t2 (fun x hx => h₁ x (List.mem_cons_of_mem _ hx))
        (fun x hx => h₂ x (List.mem_cons_of_mem _ hx)) h.2]

theorem stringDataInj (s t : String) (h : s.data = t.data) : s = t := by
  cases s
  cases t
  exact congrArg String.mk h

theorem toDigits_zero_ne_pos (n : Nat) (hn : 0 < n) : Nat.toDigits 10 n ≠ ['0'] := by
  intro h
  rw [toDigits_eq_digits n hn] at h
  have h2 : (Nat.digits 10 n).map Nat.digitChar = ['0'] := by
    have := congrArg List.reverse h
    simpa using this
  cases hd : Nat.digits 10 n with
  | nil => rw [hd] at h2; simp at h2
  | cons d t =>
    rw [hd] at h2
    cases t with
    | nil =>
      simp only [List.map_cons, List.map_nil, List.cons.injEq] at h2
      have hd10 : d < 10 := Nat.digits_lt_base (by norm_num) (by rw [hd]; exact List.mem_cons_self _ _)
      have : d = 0 := digitChar_inj_lt d hd10 0 (by norm_num) (by rw [h2.1]; rfl)
      have hzero : n = 0 := by
        have hof := Nat.ofDigits_digits 10 n
        rw [hd, this] at hof
        simpa [Nat.ofDigits] using hof.symm
      omega
    | cons d2 t2 => simp at h2

theorem natRepr_inj (m n : Nat) (h : Nat.repr m = Nat.repr n) : m = n := by
  have hd : Nat.toDigits 10 m = Nat.toDigits 10 n := by
    have hdata := congrArg String.data h
    simpa [Nat.repr, List.asString] using hdata
  rcases Nat.eq_zero_or_pos m with hm | hm
  · rcases Nat.eq_zero_or_pos n with hn | hn
    · omega
    · subst hm
      exact absurd hd.symm (toDigits_zero_ne_pos n hn)
  · rcases Nat.eq_zero_or_pos n with hn | hn
    · subst hn
      exact absurd hd (toDigits_zero_ne_pos m hm)
    · rw [toDigits_eq_digits m hm, toDigits_eq_digits n hn] at hd
      have h2 := congrArg List.reverse hd
      simp only [List.reverse_reverse] at h2
      have h3 := map_digitChar_inj (Nat.digits 10 m) (Nat.digits 10 n)
        (fun x hx => Nat.digits_lt_base (by norm_num) hx)
        (fun x hx => Nat.digits_lt_base (by norm_num) hx) h2
      have hof := Nat.ofDigits_digits 10 m
      rw [h3, Nat.ofDigits_digits 10 n] at hof
      omega

/-! ## Column name facts -/

theorem columnName_inj (a b : Nat) (h : columnName a = columnName b) : a = b := by
  have hd := congrArg String.data h
  simp only [columnName, String.data_append] at hd
  exact natRepr_inj a b (stringDataInj _ _ (List.append_cancel_left hd))

theorem columnName_head (i : Nat) : (columnName i).data.head? = some 'C' := by
  have : (columnName i).data = 'C' :: ("olumn ".data ++ (Nat.repr i).data) := by
    simp only [columnName, String.data_append]
    rfl
  rw [this]
  rfl

theorem columnName_ne_uspto (i : Nat) : columnName i ≠ "USPTO_ID" := by
  intro h
  have := congrArg (fun s => s.data.head?) h
  rw [show (fun s => s.data.head?) (columnName i) = (columnName i).data.head? from rfl,
      columnName_head] at this
  simp at this

theorem columnName_ne_tableno (i : Nat) : columnName i ≠ "Table_No" := by
  intro h
  have := congrArg (fun s => s.data.head?) h
  rw [show (fun s => s.data.head?) (columnName i) = (columnName i).data.head? from rfl,
      columnName_head] at this
  simp at this

/-! ## The add-column probe loop -/

theorem probeColumn_free (cols : List Column) :
    ∀ fuel i, (∃ j, i ≤ j ∧ j < i + fuel ∧ ∀ c ∈ cols, c.name ≠ columnName j) →
      ∃ u, i ≤ u ∧ probeColumn cols fuel i = (columnName u, u + 1) ∧
        ∀ c ∈ cols, c.name ≠ columnName u := by
  intro fuel
  induction fuel with
  | zero =>
    rintro i ⟨j, h1, h2, _⟩
    omega
  | succ fuel ih =>
    rintro i ⟨j, hij, hlt, hfree⟩
    by_cases hcol : (cols.any fun c => c.name == columnName i) = true
    · have hji : j ≠ i := by
        intro hh
        subst hh
        rw [List.any_eq_true] at hcol
        obtain ⟨c, hc, hcn⟩ := hcol
        exact hfree c hc (by simpa using hcn)
      obtain ⟨u, hu1, hu2, hu3⟩ := ih (i + 1) ⟨j, by omega, by omega, hfree⟩
      refine ⟨u, by omega, ?_, hu3⟩
      rw [probeColumn, if_pos hcol]
      exact hu2
    · refine ⟨i, Nat.le_refl i, ?_, ?_⟩
      · rw [probeColumn, if_neg hcol]
      · intro c hc hh
        rw [List.any_eq_true] at hcol
        exact hcol ⟨c, hc, by simp [hh]⟩

theorem exists_free_number (cols : List Column) (i : Nat) :
    ∃ j, i ≤ j ∧ j < i + (cols.length + 1) ∧ ∀ c ∈ cols, c.name ≠ columnName j := by
  by_contra hcon
  push_neg at hcon
  have hnd : ((List.range (cols.length + 1)).map fun k => columnName (i + k)).Nodup := by
    apply List.Nodup.map
    · intro a b hab
      have := columnName_inj (i + a) (i + b) hab
      omega
    · exact List.nodup_range _
  have hsub : ∀ x ∈ (List.range (cols.length + 1)).map fun k => columnName (i + k),
      x ∈ cols.map Column.name := by
    intro x hx
    obtain ⟨k, hk, rfl⟩ := List.mem_map.mp hx
    rw [List.mem_range] at hk
    obtain ⟨c, hc, hcn⟩ := hcon (i + k) (by omega) (by omega)
    rw [← hcn]
    exact List.mem_map.mpr ⟨c, hc, rfl⟩
  have hle := (List.subperm_of_subset hnd hsub).length_le
  simp at hle

theorem addColumnClick_spec (s : SchemaState) :
    ∃ u, s.nextColumnNumber ≤ u ∧
      (∀ c ∈ s.columns, c.name ≠ columnName u) ∧
      addColumnClick s = ⟨s.columns ++ [⟨columnName u, "TEXT"⟩], u + 1⟩ := by
  obtain ⟨j, h1, h2, h3⟩ := exists_free_number s.columns s.nextColumnNumber
  obtain ⟨u, hu1, hu2, hu3⟩ :=
    probeColumn_free s.columns (s.columns.length + 1) s.nextColumnNumber ⟨j, h1, h2, h3⟩
  refine ⟨u, hu1, hu3, ?_⟩
  rw [addColumnClick]
  rw [hu2]

theorem addColumnClick_iterate (N : Nat) :
    addColumnClick^[N] initSchema =
      ⟨initColumns ++ (List.range N).map fun j => ⟨columnName (j + 1), "TEXT"⟩, N + 1⟩ := by
  induction N with
  | zero => simp [initSchema]
  | succ N ih =>
    rw [Function.iterate_succ_apply', ih]
    have hfree : ((initColumns ++ (List.range N).map fun j =>
        (⟨columnName (j + 1), "TEXT"⟩ : Column)).any
          fun c => c.name == columnName (N + 1)) = false := by
      rw [List.any_eq_false]
      intro c hc
      simp only [beq_iff_eq]
      rcases List.mem_append.mp hc with hc | hc
      · simp only [initColumns, List.mem_cons, List.not_mem_nil, or_false,
          List.mem_singleton] at hc
        rcases hc with hc | hc <;> subst hc <;> intro hh
        · exact columnName_ne_uspto (N + 1) hh.symm
        · exact columnName_ne_tableno (N + 1) hh.symm
      · obtain ⟨j, hj, rfl⟩ := List.mem_map.mp hc
        rw [List.mem_range] at hj
        intro hh
        have := columnName_inj (j + 1) (N + 1) hh
        omega
    have hprobe : probeColumn (initColumns ++ (List.range N).map fun j =>
        (⟨columnName (j + 1), "TEXT"⟩ : Column))
          ((initColumns ++ (List.range N).map fun j =>
            (⟨columnName (j + 1), "TEXT"⟩ : Column)).length + 1) (N + 1) =
        (columnName (N + 1), N + 2) := by
      rw [probeColumn, if_neg (by simp [hfree])]
    rw [show addColumnClick ⟨initColumns ++ (List.range N).map fun j =>
        (⟨columnName (j + 1), "TEXT"⟩ : Column), N + 1⟩ =
        ⟨(initColumns ++ (List.range N).map fun j =>
          (⟨columnName (j + 1), "TEXT"⟩ : Column)) ++ [⟨columnName (N + 1), "TEXT"⟩], N + 2⟩ by
      rw [addColumnClick]
      rw [hprobe]]
    rw [List.range_succ]
    simp

/-! ## Schema invariant lemmas -/

theorem renameFirst_mem_names (cols : List Column) (o n x : String)
    (h : x ∈ (renameFirst cols o n).map Column.name) : x ∈ cols.map Column.name ∨ x = n := by
  induction cols with
  | nil => simp [renameFirst] at h
  | cons c rest ih =>
    by_cases hc : c.name = o
    · simp only [renameFirst, if_pos hc, List.map_cons, List.mem_cons] at h
      rcases h with h | h
      · exact Or.inr h
      · exact Or.inl (List.mem_cons_of_mem _ h)
    · simp only [renameFirst, if_neg hc, List.map_cons, List.mem_cons] at h
      rcases h with h | h
      · exact Or.inl (by simp [h])
      · rcases ih h with h | h
        · exact Or.inl (List.mem_cons_of_mem _ h)
        · exact Or.inr h

theorem renameFirst_nodup (cols : List Column) (o n : String)
    (hnd : (cols.map Column.name).Nodup) (hn : n ∉ cols.map Column.name) :
    ((renameFirst cols o n).map Column.name).Nodup := by
  induction cols with
  | nil => simp [renameFirst]
  | cons c rest ih =>
    simp only [List.map_cons, List.nodup_cons] at hnd
    simp only [List.map_cons, List.mem_cons, not_or] at hn
    by_cases hc : c.name = o
    · simp only [renameFirst, if_pos hc, List.map_cons, List.nodup_cons]
      exact ⟨hn.2, hnd.2⟩
    · simp only [renameFirst, if_neg hc, List.map_cons, List.nodup_cons]
      refine ⟨?_, ih hnd.2 hn.2⟩
      intro hm
      rcases renameFirst_mem_names rest o n _ hm with hm | hm
      · exact hnd.1 hm
      · exact hn.1 hm.symm

theorem retypeColumn_names (cols : List Column) (nm ty : String) :
    (retypeColumn cols nm ty).map Column.name = cols.map Column.name := by
  induction cols with
  | nil => rfl
  | cons c rest ih =>
    by_cases hc : c.name = nm
    · simp [retypeColumn, if_pos hc]
    · simp [retypeColumn, if_neg hc, ih]

theorem reconcileColumns_names (cols : List Column) (header : List String) :
    (reconcileColumns cols header).map Column.name = header := by
  rw [reconcileColumns, List.map_map,
      show (Column.name ∘ fun n => (⟨n, (typeMapGet cols n).getD "TEXT"⟩ : Column)) = id from
        funext fun n => rfl,
      List.map_id]

theorem handleRename_names_nodup (cols : List Column) (o r : String)
    (hnd : (cols.map Column.name).Nodup) :
    ((handleRename cols o r).map Column.name).Nodup := by
  rw [handleRename]
  by_cases h1 : jsTrimStr r ≠ "" ∧ jsTrimStr r ≠ o
  · rw [if_pos h1]
    cases hfind : cols.find? fun c => c.name == o with
    | none => exact hnd
    | some c0 =>
      by_cases h2 : (cols.any fun c => jsToLower c.name == jsToLower (jsTrimStr r)) = true
      · rw [if_pos h2]
        exact hnd
      · rw [if_neg h2]
        apply renameFirst_nodup cols o (jsTrimStr r) hnd
        intro hm
        obtain ⟨c, hc, hcn⟩ := List.mem_map.mp hm
        apply h2
        rw [List.any_eq_true]
        exact ⟨c, hc, by simp [hcn]⟩
  · rw [if_neg h1]
    exact hnd

theorem applySchemaOp_nodup (s : SchemaState) (op : SchemaOp) (hval : validSchemaOp op)
    (hnd : (s.columns.map Column.name).Nodup) :
    ((applySchemaOp s op).columns.map Column.name).Nodup := by
  cases op with
  | add =>
    obtain ⟨u, _, hfree, heq⟩ := addColumnClick_spec s
    show ((addColumnClick s).columns.map Column.name).Nodup
    rw [heq]
    have hnm : columnName u ∉ s.columns.map Column.name := by
      intro hm
      obtain ⟨c, hc, hcn⟩ := List.mem_map.mp hm
      exact hfree c hc hcn
    rw [List.map_append, List.nodup_append]
    refine ⟨hnd, by simp, ?_⟩
    intro x hx
    simp only [List.map_cons, List.map_nil, List.mem_singleton]
    intro hh
    subst hh
    exact hnm hx
  | rename o r => exact handleRename_names_nodup s.columns o r hnd
  | retype nm ty =>
    show ((retypeColumn s.columns nm ty).map Column.name).Nodup
    rw [retypeColumn_names]
    exact hnd
  | reconcile header =>
    show ((reconcileColumns s.columns header).map Column.name).Nodup
    rw [reconcileColumns_names]
    exact hval

theorem foldl_applySchemaOp_nodup (ops : List SchemaOp) :
    ∀ s : SchemaState, (∀ op ∈ ops, validSchemaOp op) → (s.columns.map Column.name).Nodup →
      ((ops.foldl applySchemaOp s).columns.map Column.name).Nodup := by
  induction ops with
  | nil => intro s _ hnd; exact hnd
  | cons op rest ih =>
    intro s hval hnd
    exact ih (applySchemaOp s op) (fun x hx => hval x (List.mem_cons_of_mem _ hx))
      (applySchemaOp_nodup s op (hval op (List.mem_cons_self _ _)) hnd)

/-! ## Progress table diffing lemmas -/

theorem updateRow_lookup_ne (retained dom : List (String × String)) (uid status v : String)
    (h : v ≠ uid) : lookupA (updateRow retained dom uid status) v = lookupA dom v := by
  rw [updateRow]
  cases hd : lookupA dom uid with
  | none => rfl
  | some old =>
    dsimp only
    by_cases hc : lookupA retained uid ≠ some status
    · rw [if_pos hc]
      exact lookupA_setA_ne dom uid v (paintCell status old) h
    · rw [if_neg hc]

theorem updateRow_lookup_self (retained dom : List (String × String)) (uid status : String) :
    lookupA (updateRow retained dom uid status) uid =
      match lookupA dom uid with
      | none => none
      | some old =>
        if lookupA retained uid ≠ some status then some (paintCell status old) else some old := by
  rw [updateRow]
  cases hd : lookupA dom uid with
  | none => simp [hd]
  | some old =>
    dsimp only
    by_cases hc : lookupA retained uid ≠ some status
    · simp [if_pos hc, lookupA_setA_self, hd]
    · simp [if_neg hc, hd]

theorem updateProgressTableDom_lookup (tables : List (String × String)) :
    ∀ retained dom v, (tables.map Prod.fst).Nodup →
      lookupA (updateProgressTableDom tables retained dom) v =
        match lookupA tables v with
        | some st =>
          if lookupA retained v ≠ some st then (lookupA dom v).map (paintCell st)
          else lookupA dom v
        | none => lookupA dom v := by
  induction tables with
  | nil => intro retained dom v _; rfl
  | cons t rest ih =>
    intro retained dom v hnd
    rcases t with ⟨u, st⟩
    simp only [List.map_cons, List.nodup_cons] at hnd
    have step : updateProgressTableDom ((u, st) :: rest) retained dom =
        updateProgressTableDom rest retained (updateRow retained dom u st) := rfl
    rw [step, ih retained _ v hnd.2]
    by_cases hv : v = u
    · subst hv
      have hrest : lookupA rest v = none := lookupA_eq_none_of_not_mem rest v hnd.1
      have hl : lookupA ((v, st) :: rest) v = some st := by simp [lookupA]
      rw [hrest, hl, updateRow_lookup_self]
      cases hd : lookupA dom v with
      | none => by_cases hc : lookupA retained v ≠ some st <;> simp [hc]
      | some old => by_cases hc : lookupA retained v ≠ some st <;> simp [hc]
    · have hu : ¬ u = v := fun hh => hv hh.symm
      have hcons : lookupA ((u, st) :: rest) v = lookupA rest v := by
        simp [lookupA, hu]
      rw [hcons, updateRow_lookup_ne retained dom u st v hv]

theorem lookupA_self_of_nodup {β : Type} (l : List (String × β))
    (hnd : (l.map Prod.fst).Nodup) : ∀ p ∈ l, lookupA l p.1 = some p.2 := by
  induction l with
  | nil => intro p hp; cases hp
  | cons q rest ih =>
    intro p hp
    simp only [List.map_cons, List.nodup_cons] at hnd
    rcases List.mem_cons.mp hp with heq | hmem
    · subst heq
      rcases p with ⟨k, v⟩
      simp [lookupA]
    · rcases q with ⟨k0, v0⟩
      have hk : ¬ k0 = p.1 := by
        intro hh
        apply hnd.1
        rw [hh]
        exact List.mem_map.mpr ⟨p, hmem, rfl⟩
      simp only [lookupA, if_neg hk]
      exact ih hnd.2 p hmem

theorem updateProgressTableDom_noop (tables : List (String × String)) :
    ∀ retained dom, (∀ p ∈ tables, lookupA retained p.1 = some p.2) →
      updateProgressTableDom tables retained dom = dom := by
  induction tables with
  | nil => intro retained dom _; rfl
  | cons t rest ih =>
    intro retained dom hall
    rcases t with ⟨u, st⟩
    have step : updateProgressTableDom ((u, st) :: rest) retained dom =
        updateProgressTableDom rest retained (updateRow retained dom u st) := rfl
    have hrow : updateRow retained dom u st = dom := by
      rw [updateRow]
      have := hall (u, st) (List.mem_cons_self _ _)
      cases hd : lookupA dom u with
      | none => rfl
      | some old =>
        dsimp only
        rw [if_neg]
        intro hc
        exact hc this
    rw [step, hrow]
    exact ih retained dom fun p hp => hall p (List.mem_cons_of_mem _ hp)

/-! ## Rename characterization helpers -/

theorem renameFirst_ne (cols : List Column) (o n : String) (ho : o ∈ cols.map Column.name)
    (hne : n ≠ o) : renameFirst cols o n ≠ cols := by
  induction cols with
  | nil => simp at ho
  | cons c rest ih =>
    by_cases hc : c.name = o
    · simp only [renameFirst, if_pos hc]
      intro hh
      have hhead : ({ c with name := n } : Column) = c := (List.cons.injEq _ _ _ _).mp hh |>.1
      have := congrArg Column.name hhead
      simp only at this
      exact hne (this.trans hc)
    · simp only [renameFirst, if_neg hc]
      intro hh
      have htail := (List.cons.injEq _ _ _ _).mp hh |>.2
      have ho' : o ∈ rest.map Column.name := by
        simp only [List.map_cons, List.mem_cons] at ho
        rcases ho with ho | ho
        · exact absurd ho.symm hc
        · exact ho
      exact ih ho' htail

theorem find?_name_some (cols : List Column) (o : String) (ho : o ∈ cols.map Column.name) :
    ∃ c0, cols.find? (fun c => c.name == o) = some c0 := by
  induction cols with
  | nil => simp at ho
  | cons c rest ih =>
    by_cases hc : c.name = o
    · exact ⟨c, by simp [List.find?_cons, hc]⟩
    · have ho' : o ∈ rest.map Column.name := by
        simp only [List.map_cons, List.mem_cons] at ho
        rcases ho with ho | ho
        · exact absurd ho.symm hc
        · exact ho
      obtain ⟨c0, hc0⟩ := ih ho'
      refine ⟨c0, ?_⟩
      rw [List.find?_cons_of_neg _ (by simp [hc]), hc0]

/-! ## truncPad and row lookup helpers -/

theorem truncPad_cons (values : List (List Char)) (n : Nat) :
    truncPad values (n + 1) = (values.head?.getD []) :: truncPad values.tail n := by
  cases values with
  | nil => simp [truncPad, List.replicate_succ]
  | cons v vs => simp [truncPad, Nat.succ_sub_succ]

theorem truncPad_length (values : List (List Char)) (n : Nat) :
    (truncPad values n).length = n := by
  simp only [truncPad, List.length_append, List.length_take, List.length_replicate]
  omega

theorem mkRowGo_truncPad (header : List (List Char)) :
    ∀ (values : List (List Char)) (row : CSVRow),
      mkRowGo row header values = mkRowGo row header (truncPad values header.length) := by
  induction header with
  | nil => intro values row; rfl
  | cons h hs ih =>
    intro values row
    rw [show (h :: hs).length = hs.length + 1 from rfl, truncPad_cons]
    show mkRowGo (objInsert row h (values.head?.getD [])) hs values.tail =
      mkRowGo (objInsert row h ((((values.head?.getD []) :: truncPad values.tail hs.length) :
        List (List Char)).head?.getD [])) hs
        (((values.head?.getD []) :: truncPad values.tail hs.length : List (List Char)).tail)
    simp only [List.head?_cons, Option.getD_some, List.tail_cons]
    exact ih values.tail (objInsert row h (values.head?.getD []))

theorem option_or_none {α : Type} (a : Option α) : a.or none = a := by
  cases a <;> rfl

theorem option_map_none {α β : Type} (f : α → β) : Option.map f none = none := rfl

theorem lookupA_mkRowGo (header : List (List Char)) :
    ∀ (values : List (List Char)) (row : CSVRow) (k : List Char),
      values.length = header.length →
      lookupA (mkRowGo row header values) k =
        (((header.zip values).reverse.find? fun p => p.1 == k).map fun p => p.2).or
          (lookupA row k) := by
  induction header with
  | nil =>
    intro values row k _
    simp [mkRowGo]
  | cons h hs ih =>
    intro values row k hlen
    cases values with
    | nil => simp at hlen
    | cons v vs =>
      have step : mkRowGo row (h :: hs) (v :: vs) = mkRowGo (objInsert row h v) hs vs := by
        simp [mkRowGo]
      rw [step, ih vs (objInsert row h v) k (by simpa using hlen)]
      rw [show (h :: hs).zip (v :: vs) = (h, v) :: hs.zip vs from rfl, List.reverse_cons,
          List.find?_append]
      cases hfind : (hs.zip vs).reverse.find? fun p => p.1 == k with
      | some q => simp [hfind]
      | none =>
        simp only [hfind, option_map_none, option_none_or]
        by_cases hk : h = k
        · subst hk
          have : List.find? (fun p => p.1 == h) [(h, v)] = some (h, v) := by simp
          rw [this]
          simp [lookupA_objInsert_self]
        · have : List.find? (fun p => p.1 == k) [(h, v)] = none := by simp [hk]
          rw [this]
          simp only [option_map_none, option_none_or]
          exact lookupA_objInsert_ne row h k v fun hh => hk hh.symm

/-! ## Claim theorems -/

/-- Claim C10: the per-line field scanner is total and returns a field list on
every input: it always yields at least one field; an unclosed quoted field at
end of line yields its accumulated content (commas included) as the single
final field; and a doubled quote while inside quotes consumes both characters
and appends exactly one literal quote without leaving quoted mode, so a
following comma stays literal up to the closing quote. -/
theorem c10_scanner_behavior :
    (∀ line, parseCSVLine line ≠ []) ∧
    (∀ s, '"' ∉ s → parseCSVLine ('"' :: s) = [jsTrim s]) ∧
    (∀ a b, '"' ∉ a → '"' ∉ b →
      parseCSVLine ('"' :: (a ++ '"' :: '"' :: (b ++ ['"']))) = [jsTrim (a ++ '"' :: b)]) := by
  refine ⟨fun line => scanLine_ne_nil line [] false, ?_, ?_⟩
  · intro s hs
    have hs' : ∀ c ∈ s, c ≠ '"' := fun c hc hh => hs (hh ▸ hc)
    show scanLine ('"' :: s) [] false = [jsTrim s]
    rw [scanLine.eq_4]
    have hq := scanLine_append_quoted s hs' [] []
    rw [List.append_nil, List.nil_append] at hq
    rw [hq, scanLine.eq_1]
  · intro a b ha hb
    have ha' : ∀ c ∈ a, c ≠ '"' := fun c hc hh => ha (hh ▸ hc)
    have hb' : ∀ c ∈ b, c ≠ '"' := fun c hc hh => hb (hh ▸ hc)
    show scanLine ('"' :: (a ++ '"' :: '"' :: (b ++ ['"']))) [] false = _
    rw [scanLine.eq_4, scanLine_append_quoted a ha' _ [], List.nil_append, scanLine.eq_2,
        scanLine_append_quoted b hb' _ _,
        scanLine.eq_3 _ [] (by intro r1 hh; cases hh), scanLine.eq_1]
    congr 1
    simp

/-- Witness for C10: a concrete unclosed quoted field containing a comma
decodes as one single field. -/
theorem c10_witness : parseCSVLine ('"' :: "ab, c".data) = [jsTrim "ab, c".data] :=
  c10_scanner_behavior.2.1 ("ab, c".data) (by decide)

/-- Claim C8: the decoder's concrete examples: empty and whitespace-only
inputs decode to no rows; the spec's three example documents decode as
stated (a doubled double-quote decodes to one literal quote); and every field
value the line scanner produces is trimmed of surrounding whitespace. -/
theorem c8_decoder_examples :
    parseCSV [] = [] ∧
    (∀ t : List Char, (∀ c ∈ t, isWS c = true) → parseCSV t = []) ∧
    parseCSV ("a,b\n1,2\n".data) = [[("a".data, "1".data), ("b".data, "2".data)]] ∧
    parseCSV ("a,b\n\"x,y\",2\n".data) = [[("a".data, "x,y".data), ("b".data, "2".data)]] ∧
    parseCSV ("a\n\"he said \"\"hi\"\"\n".data) = [[("a".data, "he said \"hi\"".data)]] ∧
    (∀ line f, f ∈ parseCSVLine line → jsTrim f = f) := by
  refine ⟨by decide, ?_, by decide, by decide, by decide, ?_⟩
  · intro t ht
    simp [parseCSV, jsTrim_eq_nil_of_all_ws t ht]
  · intro line f hf
    obtain ⟨x, hx⟩ := scanLine_mem_trim line [] false f hf
    rw [hx, jsTrim_idem]

/-- Witness for C8: a concrete whitespace-only input decodes to no rows. -/
theorem c8_witness : parseCSV (" \t ".data) = [] :=
  c8_decoder_examples.2.1 (" \t ".data) (by decide)

/-- Claim C9: decoded rows are shaped by the header: missing trailing fields
are read as the empty string and excess fields are dropped (`mkRow` only sees
the header-length truncation/padding of the value list); under duplicate
header names the value bound to a name is the one at the *last* occurrence
(the reverse-order find); and a line that trims to empty contributes no row
at all. -/
theorem c9_row_mapping :
    (∀ header values, mkRow header values = mkRow header (truncPad values header.length)) ∧
    (∀ header values k, lookupA (mkRow header values) k =
      ((header.zip (truncPad values header.length)).reverse.find? fun p => p.1 == k).map
        fun p => p.2) ∧
    (∀ header l₁ b l₂, jsTrim b = [] →
      csvDataRows header (l₁ ++ b :: l₂) = csvDataRows header (l₁ ++ l₂)) := by
  refine ⟨?_, ?_, ?_⟩
  · intro header values
    exact mkRowGo_truncPad header values []
  · intro header values k
    rw [mkRow, mkRowGo_truncPad header values [],
        lookupA_mkRowGo header (truncPad values header.length) [] k
          (truncPad_length values header.length),
        show lookupA ([] : CSVRow) k = none from rfl, option_or_none]
  · intro header l₁ b l₂ hb
    simp [csvDataRows, List.filterMap_append, List.filterMap_cons, hb]

/-- Witness for C9: inserting a concrete blank line between two data lines
changes nothing. -/
theorem c9_witness :
    csvDataRows ["a".data] (["1".data] ++ [' ', ' '] :: ["2".data]) =
      csvDataRows ["a".data] (["1".data] ++ ["2".data]) :=
  c9_row_mapping.2.2 ["a".data] ["1".data] [' ', ' '] ["2".data] (by decide)

/-- Claim C2 (amended): the round-trip law holds for row sets whose field
values contain no line break, are fixed under trimming, and are aligned with
a nonempty duplicate-free header of nonempty trim-fixed names, provided no
row is a single empty field (such a row serializes to a blank line, which the
decoder skips).  Under those conditions serialize-then-decode reproduces
every field value exactly, commas and doubled quotes included.  A line break
inside a quoted field is *not* reproduced: the decoder splits the text into
lines before scanning quotes, so the line break terminates the record (see
the counterexample). -/
theorem c2_roundtrip (header : List (List Char)) (rows : List (List (List Char)))
    (hne : header ≠ []) (hnd : header.Nodup)
    (hhf : ∀ h ∈ header, jsTrim h = h ∧ '\n' ∉ h ∧ h ≠ [])
    (hrows : ∀ r ∈ rows, r.length = header.length ∧ r ≠ [[]] ∧
      ∀ f ∈ r, jsTrim f = f ∧ '\n' ∉ f) :
    parseCSV (serializeCSV header rows) = rows.map fun r => header.zip r :=
  parseCSV_serializeCSV header rows hne hnd hhf hrows

/-- Witness for C2: a concrete row with an embedded comma and embedded
doubled quotes round-trips exactly. -/
theorem c2_witness :
    parseCSV (serializeCSV ["a".data, "b".data] [["x,y".data, "he said \"hi\"".data]]) =
      [[("a".data, "x,y".data), ("b".data, "he said \"hi\"".data)]] := by
  rw [c2_roundtrip ["a".data, "b".data] [["x,y".data, "he said \"hi\"".data]]
    (by decide) (by decide) (by decide) (by decide)]
  decide

/-- Counterexample to C2 as stated: a field value containing a line break
does not survive the round trip — the serialized quoted field is split at the
line break and decodes as two separate single-field records. -/
theorem c2_counterexample :
    parseCSV (serializeCSV ["a".data] [[['x', '\n', 'y']]]) ≠
      [["a".data].zip [['x', '\n', 'y']]] ∧
    parseCSV (serializeCSV ["a".data] [[['x', '\n', 'y']]]) =
      [[("a".data, ['x'])], [("a".data, ['y'])]] := by
  decide

/-- Claim C4 (amended): for a column list containing `old`, `rename(old,new)`
is a no-op exactly when the trimmed new name is empty, equals `old`
case-sensitively, or is case-insensitively equal to the name of *any*
existing column — including the renamed column itself, so a rename that only
changes the letter case of the column's own name is also a no-op (see the
counterexample); in every other case the rename commits. -/
theorem c4_rename_noop_iff (cols : List Column) (old rawNew : String)
    (h : old ∈ cols.map Column.name) :
    handleRename cols old rawNew = cols ↔
      (jsTrimStr rawNew = "" ∨ jsTrimStr rawNew = old ∨
        ∃ c ∈ cols, jsToLower c.name = jsToLower (jsTrimStr rawNew)) := by
  constructor
  · intro heq
    by_contra hcon
    push_neg at hcon
    obtain ⟨h1, h2, h3⟩ := hcon
    rw [handleRename, if_pos ⟨h1, h2⟩] at heq
    obtain ⟨c0, hc0⟩ := find?_name_some cols old h
    rw [hc0] at heq
    dsimp only at heq
    have hany : (cols.any fun c => jsToLower c.name == jsToLower (jsTrimStr rawNew)) = false := by
      rw [List.any_eq_false]
      intro c hc
      simp only [beq_iff_eq]
      exact h3 c hc
    rw [if_neg (by simp [hany])] at heq
    exact renameFirst_ne cols old (jsTrimStr rawNew) h h2 heq
  · intro hcon
    by_cases h12 : jsTrimStr rawNew ≠ "" ∧ jsTrimStr rawNew ≠ old
    · have hcol : ∃ c ∈ cols, jsToLower c.name = jsToLower (jsTrimStr rawNew) := by
        rcases hcon with hc | hc | hc
        · exact absurd hc h12.1
        · exact absurd hc h12.2
        · exact hc
      rw [handleRename, if_pos h12]
      obtain ⟨c0, hc0⟩ := find?_name_some cols old h
      rw [hc0]
      dsimp only
      rw [if_pos]
      rw [List.any_eq_true]
      obtain ⟨c, hc, hce⟩ := hcol
      exact ⟨c, hc, by simp [hce]⟩
    · rw [handleRename, if_neg h12]

/-- Witness for C4: renaming a column to itself surrounded by whitespace
trims to the old name and reverts. -/
theorem c4_witness :
    handleRename initColumns "Table_No" " Table_No " = initColumns :=
  (c4_rename_noop_iff initColumns "Table_No" " Table_No " (by decide)).mpr
    (Or.inr (Or.inl (by decide)))

/-- Counterexample to C4 as stated: a rename that changes only the letter
case of the column's own name ("Foo" to "FOO") satisfies none of the claim's
no-op conditions (nonempty, different from old, no case-insensitive collision
with a *different* column), yet the code reverts it: the collision scan also
matches the renamed column itself. -/
theorem c4_counterexample :
    (jsTrimStr "FOO" ≠ "" ∧ jsTrimStr "FOO" ≠ "Foo" ∧
      ∀ c ∈ [(⟨"USPTO_ID", "TEXT"⟩ : Column), ⟨"Table_No", "TEXT"⟩, ⟨"Foo", "TEXT"⟩],
        c.name ≠ "Foo" → jsToLower c.name ≠ jsToLower (jsTrimStr "FOO")) ∧
    handleRename [(⟨"USPTO_ID", "TEXT"⟩ : Column), ⟨"Table_No", "TEXT"⟩, ⟨"Foo", "TEXT"⟩]
        "Foo" "FOO" =
      [(⟨"USPTO_ID", "TEXT"⟩ : Column), ⟨"Table_No", "TEXT"⟩, ⟨"Foo", "TEXT"⟩] := by
  decide

/-- Claim C6 (amended): the invariant every schema operation preserves is
*case-sensitive* uniqueness of column names: from the initial schema, every
sequence of add / rename / retype / reconcile operations (with reconciliation
headers duplicate-free, as `Object.keys` guarantees) leaves pairwise distinct
names.  Case-insensitive uniqueness is *not* invariant: `addColumn` probes
with a case-sensitive comparison, so after a rename to a lowercase
"column n" it can add the same name in different case (see the
counterexample). -/
theorem c6_case_sensitive_unique (ops : List SchemaOp)
    (hval : ∀ op ∈ ops, validSchemaOp op) :
    ((ops.foldl applySchemaOp initSchema).columns.map Column.name).Nodup :=
  foldl_applySchemaOp_nodup ops initSchema hval (by decide)

/-- Witness for C6: a concrete operation sequence keeps names distinct. -/
theorem c6_witness :
    ((([SchemaOp.add, SchemaOp.rename "Column 1" "Part", SchemaOp.retype "Part" "NUMERIC",
        SchemaOp.reconcile ["USPTO_ID", "Table_No", "Part"]].foldl applySchemaOp
      initSchema).columns.map Column.name)).Nodup :=
  c6_case_sensitive_unique
    [SchemaOp.add, SchemaOp.rename "Column 1" "Part", SchemaOp.retype "Part" "NUMERIC",
      SchemaOp.reconcile ["USPTO_ID", "Table_No", "Part"]]
    (by intro op hop; fin_cases hop <;> simp [validSchemaOp])

/-- Counterexample to C6 as stated: add, rename the new column to
"column 2", then add again — the second add generates "Column 2", which
collides case-insensitively with "column 2", so the resulting schema has two
names equal under case-insensitive comparison. -/
theorem c6_counterexample :
    (∀ op ∈ ([SchemaOp.add, SchemaOp.rename "Column 1" "column 2", SchemaOp.add] :
        List SchemaOp), validSchemaOp op) ∧
    ¬ (([SchemaOp.add, SchemaOp.rename "Column 1" "column 2", SchemaOp.add].foldl
        applySchemaOp initSchema).columns.map fun c => jsToLower c.name).Nodup := by
  constructor
  · intro op hop
    fin_cases hop <;> trivial
  · decide

/-- Claim C7: `addColumn` takes the next number from the monotonically
increasing counter, re-probes past case-sensitive collisions, appends a fresh
"Column u" with `u` at least the counter value, and retires `u` by setting
the counter to `u + 1` (so no retired number is ever reused); and for every
N, after N consecutive adds from the initial schema with no renames the
columns are exactly the fixed ones followed by "Column 1" .. "Column N" in
order. -/
theorem c7_add_column :
    (∀ s : SchemaState, ∃ u, s.nextColumnNumber ≤ u ∧
      (addColumnClick s).nextColumnNumber = u + 1 ∧
      (addColumnClick s).columns = s.columns ++ [⟨columnName u, "TEXT"⟩] ∧
      ∀ c ∈ s.columns, c.name ≠ columnName u) ∧
    (∀ N : Nat, addColumnClick^[N] initSchema =
      ⟨initColumns ++ (List.range N).map fun j => ⟨columnName (j + 1), "TEXT"⟩, N + 1⟩) := by
  constructor
  · intro s
    obtain ⟨u, h1, h2, h3⟩ := addColumnClick_spec s
    exact ⟨u, h1, by rw [h3], by rw [h3], h2⟩
  · exact addColumnClick_iterate

/-- Claim C5: processing a new snapshot replaces the retained copy wholesale;
pointwise, a row's cells change exactly when the row exists, the item is in
the snapshot, and its status differs from the retained one, in which case
they are repainted through the closed vocabulary (`completed_relevant` to the
Match badge, `completed_irrelevant` and `error` to the Miss badge,
`pending`/`processing` leaving the cell content unchanged); every other row
is untouched, and a snapshot identical to the retained copy changes
nothing. -/
theorem c5_incremental_repaint :
    (∀ old, paintCell "completed_relevant" old = matchBadge ∧
      paintCell "completed_irrelevant" old = missBadge ∧
      paintCell "error" old = missBadge ∧
      paintCell "pending" old = old ∧ paintCell "processing" old = old) ∧
    (∀ tables retained dom : List (String × String), (tables.map Prod.fst).Nodup →
      (updateProgressTable tables retained dom).1 = tables ∧
      ∀ v, lookupA (updateProgressTable tables retained dom).2 v =
        match lookupA tables v with
        | some st =>
          if lookupA retained v ≠ some st then (lookupA dom v).map (paintCell st)
          else lookupA dom v
        | none => lookupA dom v) ∧
    (∀ tables dom : List (String × String), (tables.map Prod.fst).Nodup →
      updateProgressTable tables tables dom = (tables, dom)) := by
  refine ⟨?_, ?_, ?_⟩
  · intro old
    exact ⟨rfl, rfl, rfl, rfl, rfl⟩
  · intro tables retained dom hnd
    exact ⟨rfl, fun v => updateProgressTableDom_lookup tables retained dom v hnd⟩
  · intro tables dom hnd
    rw [updateProgressTable,
        updateProgressTableDom_noop tables tables dom (lookupA_self_of_nodup tables hnd)]

/-- Witness for C5: a resent identical concrete snapshot is a no-op. -/
theorem c5_witness :
    updateProgressTable [("u1", "pending")] [("u1", "pending")] [("u1", loadingBadge)] =
      ([("u1", "pending")], [("u1", loadingBadge)]) :=
  c5_incremental_repaint.2.2 [("u1", "pending")] [("u1", loadingBadge)] (by decide)

/-- Claim C1 (amended): the poll-response continuation performs no staleness
check at all: its effect is independent of the task tag the request was
issued under, so a response resolving after its handle has been superseded is
processed exactly like a current one — in particular an error snapshot
overwrites the status line and stops the currently running timers whatever
the tag was. -/
theorem c1_no_staleness_check :
    (∀ tag1 tag2 p s, pollProgress tag1 p s = pollProgress tag2 p s) ∧
    (∀ tag p s, p.status = "error" →
      (pollProgress tag p s).statusText = "❌ " ++ p.message.getD "Extraction failed" ∧
      (pollProgress tag p s).pollActive = false ∧
      (pollProgress tag p s).dotActive = false) := by
  constructor
  · intro tag1 tag2 p s
    rfl
  · intro tag p s h
    have h1 : ¬ p.status = "not_found" := by rw [h]; decide
    have h2 : ¬ p.status = "completed" := by rw [h]; decide
    simp only [pollProgress, if_neg h1, if_pos (Or.inr h), updateProgressUI, if_neg h2,
      if_pos h]
    exact ⟨rfl, rfl, rfl⟩

/-- Witness for C1: two different tags produce the same state, and the stale
error response really mutates the status line. -/
theorem c1_witness :
    pollProgress "t1" ⟨"error", some "boom", []⟩ initAppState =
      pollProgress "t2" ⟨"error", some "boom", []⟩ initAppState ∧
    (pollProgress "t1" ⟨"error", some "boom", []⟩ initAppState).statusText = "❌ " ++ "boom" :=
  ⟨c1_no_staleness_check.1 "t1" "t2" ⟨"error", some "boom", []⟩ initAppState,
    (c1_no_staleness_check.2 "t1" ⟨"error", some "boom", []⟩ initAppState rfl).1⟩

/-- Counterexample to C1 as stated: with task "task2" live, a response still
tagged with the superseded handle "task1" is not discarded — it changes the
state (it rewrites the status line and kills the live task's poll timer). -/
theorem c1_counterexample :
    ("task1" : String) ≠ "task2" ∧
    (AppState.mk (some "task2") true true [("u1", "pending")] [("u1", loadingBadge)] "" true
        []).currentTaskId = some "task2" ∧
    pollProgress "task1" ⟨"error", some "boom", []⟩
        (AppState.mk (some "task2") true true [("u1", "pending")] [("u1", loadingBadge)] ""
          true []) ≠
      AppState.mk (some "task2") true true [("u1", "pending")] [("u1", loadingBadge)] "" true
        [] := by
  decide

/-- Claim C3 (amended): on submission rejection and on transport failure the
timers are stopped and the submission control is re-enabled, with the failure
message surfaced; on a polled snapshot with status error all timers are
stopped and the server-provided message is surfaced with the failure prefix,
but the submission control is left exactly as it was (it is *not*
re-enabled), and no return-to-idle is scheduled. -/
theorem c3_failure_paths :
    (∀ q cols s d, jsTrimStr q ≠ "" → cols ≠ [] →
      (handleSearch q cols (SubmitOutcome.httpError d) s).pollActive = false ∧
      (handleSearch q cols (SubmitOutcome.httpError d) s).dotActive = false ∧
      (handleSearch q cols (SubmitOutcome.httpError d) s).searchDisabled = false ∧
      (handleSearch q cols (SubmitOutcome.httpError d) s).statusText =
        "❌ " ++ d.getD "Unknown error") ∧
    (∀ q cols s, jsTrimStr q ≠ "" → cols ≠ [] →
      (handleSearch q cols SubmitOutcome.networkError s).pollActive = false ∧
      (handleSearch q cols SubmitOutcome.networkError s).dotActive = false ∧
      (handleSearch q cols SubmitOutcome.networkError s).searchDisabled = false) ∧
    (∀ tag p s, p.status = "error" →
      (pollProgress tag p s).pollActive = false ∧
      (pollProgress tag p s).dotActive = false ∧
      (pollProgress tag p s).statusText = "❌ " ++ p.message.getD "Extraction failed" ∧
      (pollProgress tag p s).searchDisabled = s.searchDisabled) := by
  refine ⟨?_, ?_, ?_⟩
  · intro q cols s d hq hcols
    have hcond : ¬ (jsTrimStr q = "" ∨ cols = []) := by
      intro hc
      rcases hc with hc | hc
      · exact hq hc
      · exact hcols hc
    simp only [handleSearch, if_neg hcond]
    refine ⟨?_, ?_, ?_, ?_⟩ <;> first | rfl | trivial
  · intro q cols s hq hcols
    have hcond : ¬ (jsTrimStr q = "" ∨ cols = []) := by
      intro hc
      rcases hc with hc | hc
      · exact hq hc
      · exact hcols hc
    simp only [handleSearch, if_neg hcond]
    refine ⟨?_, ?_, ?_⟩ <;> first | rfl | trivial
  · intro tag p s h
    have h1 : ¬ p.status = "not_found" := by rw [h]; decide
    have h2 : ¬ p.status = "completed" := by rw [h]; decide
    simp only [pollProgress, if_neg h1, if_pos (Or.inr h), updateProgressUI, if_neg h2,
      if_pos h]
    refine ⟨?_, ?_, ?_, ?_⟩
    · rfl
    · rfl
    · rfl
    · show (if p.tables ≠ [] ∧ s.tableProgressData = [] then _ else
        if p.tables ≠ [] then _ else s).searchDisabled = s.searchDisabled
      split_ifs <;> rfl

/-- Witness for C3: the concrete failure paths behave as the amended claim
says. -/
theorem c3_witness :
    (handleSearch "q" initColumns (SubmitOutcome.httpError (some "bad query"))
      initAppState).searchDisabled = false ∧
    (handleSearch "q" initColumns (SubmitOutcome.httpError (some "bad query"))
      initAppState).pollActive = false ∧
    (pollProgress "t1" ⟨"error", none, []⟩ initAppState).statusText =
      "❌ " ++ "Extraction failed" := by
  refine ⟨?_, ?_, ?_⟩
  · exact (c3_failure_paths.1 "q" initColumns initAppState (some "bad query") (by decide)
      (by decide)).2.2.1
  · exact (c3_failure_paths.1 "q" initColumns initAppState (some "bad query") (by decide)
      (by decide)).1
  · exact (c3_failure_paths.2.2 "t1" ⟨"error", none, []⟩ initAppState rfl).2.2.1

/-- Counterexample to C3 as stated: after a successful submission enters
polling, an error snapshot stops the timers but leaves the submission control
disabled — the claim's "re-enabled rather than left permanently disabled"
fails on this path, and nothing schedules a return to idle. -/
theorem c3_counterexample :
    (pollProgress "t1" ⟨"error", some "boom", []⟩
        (handleSearch "q" initColumns
          (SubmitOutcome.ok [("u1", "pending")] none none (some "t1"))
          initAppState)).pollActive = false ∧
    (pollProgress "t1" ⟨"error", some "boom", []⟩
        (handleSearch "q" initColumns
          (SubmitOutcome.ok [("u1", "pending")] none none (some "t1"))
          initAppState)).searchDisabled = true := by
  decide
